import Mathlib

/-!
Verification of the Kuba rules engine in src/KubaGame.py.

The Python class KubaGame is shallowly embedded below.  Board cells and
player colors are the one-character Python strings used by the source
("W", "B", "R", "X"), modelled as Lean String values so that the source's
string comparisons (including the substring test in the constructor) keep
their exact semantics.  Positions are pairs of integers, since the source
manipulates possibly-negative coordinates and detects off-board access by
an explicit negativity check plus the IndexError of list indexing; an
off-board read is modelled as Option.none.  Python mutation is modelled by
explicit state passing; the dictionary self._players_info, whose insertion
order is (player_one, player_two) with distinct keys, is modelled by the
two fields p1/p2 together with their names.
-/

/-- A board position (row, column), possibly off the board. -/
abbrev Pos : Type := Int × Int

/-- Offset application: the cell one step from p in direction off. -/
def stepPos (p off : Pos) : Pos := (p.1 + off.1, p.2 + off.2)

/-- The cell opposite the push direction, behind = marble + (-offset). -/
def backPos (p off : Pos) : Pos := (p.1 + -off.1, p.2 + -off.2)

/-- The board: the source keeps a list of 7 lists of 7 one-character strings. -/
abbrev Board : Type := List (List String)

/-- Embedding of KubaGame.get_marble: IndexError (negative coordinate, or list
index out of range) becomes none. -/
def getMarble (b : Board) (p : Pos) : Option String :=
  if p.1 < 0 ∨ p.2 < 0 then none
  else match b[p.1.toNat]? with
       | none => none
       | some row => row[p.2.toNat]?

/-- The value the source reads at an in-bounds position; the default is never
reached at the positions where the source performs this read. -/
def cellAt (b : Board) (p : Pos) : String := (getMarble b p).getD "X"

/-- Embedding of the assignment self._board[r][c] = v.  The source only
performs it at in-bounds positions; out-of-bounds writes are no-ops here. -/
def setCell (b : Board) (p : Pos) (v : String) : Board :=
  if p.1 < 0 ∨ p.2 < 0 then b
  else b.set p.1.toNat ((b.getD p.1.toNat []).set p.2.toNat v)

/-- Embedding of KubaGame._boards_equal: every cell of a, with its index,
is compared against the cell of b at the same index.  (Where the source
would raise an IndexError on a too-short b, this reads a default; the
method is only ever called on two 7 by 7 boards.) -/
def boardsEqual (a b : Board) : Bool :=
  a.enum.all fun rrow =>
    rrow.2.enum.all fun ccell => ccell.2 == (b.getD rrow.1 []).getD ccell.1 ""

/-- Weight of a cell for marble counting: non-empty cells weigh 1. -/
def marbleWeight (c : String) : Nat := if c == "X" then 0 else 1

/-- Total number of marbles (non-empty cells) on a board. -/
def marbleTotal (b : Board) : Nat :=
  (b.map (fun row => (row.map marbleWeight).sum)).sum

/-- Number of cells holding exactly the given color. -/
def colorCount (b : Board) (color : String) : Nat :=
  (b.map (fun row => (row.filter (fun c => c == color)).length)).sum

/-- One fold step of KubaGame.get_marble_count: skip "X", index 0 for "W",
index 1 for "B", anything else counts at index 2. -/
def countStep (acc : Nat × Nat × Nat) (cell : String) : Nat × Nat × Nat :=
  if cell == "X" then acc
  else if cell == "W" then (acc.1 + 1, acc.2.1, acc.2.2)
  else if cell == "B" then (acc.1, acc.2.1 + 1, acc.2.2)
  else (acc.1, acc.2.1, acc.2.2 + 1)

/-- Embedding of KubaGame.get_marble_count: (white, black, red) counts. -/
def getMarbleCount (b : Board) : Nat × Nat × Nat :=
  b.foldl (fun acc row => row.foldl countStep acc) (0, 0, 0)

/-- Python tuple indexing for the 3-tuple returned by get_marble_count; the
source indexes it with the bool (info['color'] == 'W'), i.e. 0 or 1. -/
def tupleGet (t : Nat × Nat × Nat) (i : Nat) : Nat :=
  if i = 0 then t.1 else if i = 1 then t.2.1 else t.2.2

/-- Mutable per-player record of self._players_info: color and captured. -/
structure PlayerInfo where
  color : String
  captured : Nat
deriving DecidableEq, Repr

/-- The whole mutable state of a KubaGame instance. -/
structure GameState where
  p1Name : String
  p1 : PlayerInfo
  p2Name : String
  p2 : PlayerInfo
  current : Option String
  winner : Option String
  board : Board
  lastBoard : Board
deriving DecidableEq, Repr

/-- Embedding of the DIRECTIONS dictionary: key lookup. -/
def DIRECTIONS (d : String) : Option Pos :=
  if d = "F" then some (-1, 0)
  else if d = "R" then some (0, 1)
  else if d = "L" then some (0, -1)
  else if d = "B" then some (1, 0)
  else none

/-- The dictionary's value view in insertion order F, R, L, B, as iterated
by _has_legal_move. -/
def directionOffsets : List Pos := [(-1, 0), (0, 1), (0, -1), (1, 0)]

/-- Python substring membership: the test (color in 'WB') of the constructor
is a substring test on strings, true for "", "W", "B" and "WB".  Stated on
the underlying character lists. -/
def strIn (sub s : String) : Bool :=
  (List.range (s.data.length + 1)).any fun i => List.isPrefixOf sub.data (s.data.drop i)

/-- The fixed canonical starting layout of KubaGame.__init__. -/
def initBoard : Board :=
  [["W", "W", "X", "X", "X", "B", "B"],
   ["W", "W", "X", "R", "X", "B", "B"],
   ["X", "X", "R", "R", "R", "X", "X"],
   ["X", "R", "R", "R", "R", "R", "X"],
   ["X", "X", "R", "R", "R", "X", "X"],
   ["B", "B", "X", "R", "X", "W", "W"],
   ["B", "B", "X", "X", "X", "W", "W"]]

/-- Embedding of KubaGame.__init__.  A raised ValueError becomes none.  The
checks run in source order: for each player in order, name then color; then
color uniqueness; then name uniqueness (the source detects duplicate names
by the dictionary collapsing to fewer than two entries).  The initial board
copy makes _last_board equal to the starting board. -/
def kubaInit (playerOne playerTwo : String × String) : Option GameState :=
  if playerOne.1 = "" then none
  else if !(strIn playerOne.2 "WB") then none
  else if playerTwo.1 = "" then none
  else if !(strIn playerTwo.2 "WB") then none
  else if playerOne.2 = playerTwo.2 then none
  else if playerOne.1 = playerTwo.1 then none
  else some
    { p1Name := playerOne.1
      p1 := { color := playerOne.2, captured := 0 }
      p2Name := playerTwo.1
      p2 := { color := playerTwo.2, captured := 0 }
      current := none
      winner := none
      board := initBoard
      lastBoard := initBoard }

/-- Dictionary lookup self._players_info[name], insertion order p1 then p2. -/
def playerInfo (s : GameState) (name : String) : Option PlayerInfo :=
  if name = s.p1Name then some s.p1
  else if name = s.p2Name then some s.p2
  else none

/-- Embedding of KubaGame.get_captured: 0 for an unknown name. -/
def getCaptured (s : GameState) (name : String) : Nat :=
  match playerInfo s name with
  | some info => info.captured
  | none => 0

/-- Mutation info['captured'] = v for the named player's dictionary entry. -/
def setCaptured (s : GameState) (name : String) (v : Nat) : GameState :=
  if name = s.p1Name then { s with p1 := { s.p1 with captured := v } }
  else if name = s.p2Name then { s with p2 := { s.p2 with captured := v } }
  else s

/-- Python truthiness of self._winner (None and the empty string are falsy). -/
def truthyStr : Option String → Bool
  | none => false
  | some v => !(v == "")

/-- Check 4 of make_move: current is not None and current != player_name. -/
def turnBlocked (current : Option String) (name : String) : Bool :=
  match current with
  | none => false
  | some c => !(c == name)

/-- Check 7 of make_move: the cell behind the marble holds a marble (an
off-board behind position raises IndexError, which the source passes on). -/
def behindBlocked (b : Board) (marble off : Pos) : Bool :=
  match getMarble b (backPos marble off) with
  | some c => !(c == "X")
  | none => false

/-- Embedding of KubaGame._has_legal_move: some adjacent cell, in the
dictionary's direction order, is empty or off-board. -/
def hasLegalMove (b : Board) (p : Pos) : Bool :=
  directionOffsets.any fun off =>
    match getMarble b (stepPos p off) with
    | none => true
    | some c => c == "X"

/-- Final value of have_legal_moves[color] after the win-evaluation scan of
make_move: the scan sets the flag of a cell's color when that cell has a
legal move, so the flag ends true exactly when some cell of the color has
one (the early break once both flags are true does not change the flags). -/
def colorHasMove (b : Board) (color : String) : Bool :=
  b.enum.any fun rrow =>
    rrow.2.enum.any fun ccell =>
      ccell.2 == color && hasLegalMove b ((rrow.1 : Int), (ccell.1 : Int))

/-- The moveless_color generator expression: the first of the two colors, in
dictionary insertion order, whose flag stayed false. -/
def movelessColor (g : GameState) : Option String :=
  if !(colorHasMove g.board g.p1.color) then some g.p1.color
  else if !(colorHasMove g.board g.p2.color) then some g.p2.color
  else none

/-- The next(...) expression flipping the turn: the first registered name
different from the mover (names are unique after construction). -/
def nextPlayer (s : GameState) (name : String) : String :=
  if !(s.p1Name == name) then s.p1Name else s.p2Name

/-- The win-evaluation block of make_move, run on the committed state g
(g.board is the pushed board, g.winner still the pre-move winner): capture
win at 7, else opponent-count-zero win via the bool-indexed tuple, else the
legal-move scan; "if moveless_color:" is Python truthiness, so an empty
color token never triggers the scan win.  The next(...) choosing the winner
picks the first player whose color differs (the two colors are distinct
after construction). -/
def evalWinner (g : GameState) (name : String) (color : String) (captured : Nat) :
    Option String :=
  if 7 ≤ captured then some name
  else if tupleGet (getMarbleCount g.board) (if color == "W" then 1 else 0) == 0 then
    some name
  else match movelessColor g with
       | some c =>
           if c == "" then g.winner
           else some (if !(g.p1.color == c) then g.p1Name else g.p2Name)
       | none => g.winner

/-- The collection loop of make_move, extending from the last collected
marble until an empty cell or the board edge.  The loop needs no fuel in
Python; here 49 steps are more than any straight line of in-bounds
positions on the 7 by 7 boards the game ever holds. -/
def collectFrom (b : Board) (off : Pos) : Pos → Nat → List Pos
  | _, 0 => []
  | last, fuel + 1 =>
      match getMarble b (stepPos last off) with
      | none => []
      | some c => if c == "X" then []
                  else stepPos last off :: collectFrom b off (stepPos last off) fuel

/-- moving_marbles: the clicked marble followed by the contiguous run. -/
def collectRun (b : Board) (off : Pos) (marble : Pos) : List Pos :=
  marble :: collectFrom b off marble 49

/-- One iteration of the push loop, for the marble at position moving: if
its destination is on the board, the destination receives the marble's
value and the vacated cell becomes "X"; if the destination raises
IndexError, the board is left untouched and the mover's captured counter
grows when the marble that fell off was red. -/
def simStep (off : Pos) (acc : Board × Nat) (moving : Pos) : Board × Nat :=
  match getMarble acc.1 (stepPos moving off) with
  | some _ =>
      (setCell (setCell acc.1 (stepPos moving off) (cellAt acc.1 moving)) moving "X",
       acc.2)
  | none =>
      (acc.1, if cellAt acc.1 moving == "R" then acc.2 + 1 else acc.2)

/-- The push loop of make_move: the collected run walked from the far end
(moving_marbles[::-1]), returning the pushed board and the number of
captured-counter increments. -/
def simulate (b : Board) (off : Pos) (run : List Pos) : Board × Nat :=
  run.reverse.foldl (simStep off) (b, 0)

/-- The committed state after the repetition check passes: captured counter
already updated during simulation, board is the pushed board, _last_board
becomes the pre-move board, the winner evaluation runs on that state, and
the turn flips unconditionally. -/
def commitState (s : GameState) (name : String) (info : PlayerInfo)
    (res : Board × Nat) : GameState :=
  let g := { setCaptured s name (info.captured + res.2) with
             board := res.1, lastBoard := s.board }
  { g with winner := evalWinner g name info.color (info.captured + res.2),
           current := some (nextPlayer s name) }

/-- Embedding of KubaGame.make_move.  The validation chain rejects in source
order; after simulation, a pushed board equal to _last_board restores the
board backup and rejects (the captured increment from the simulation is
kept, as in the source); otherwise the move commits. -/
def makeMove (s : GameState) (name : String) (marble : Pos) (direction : String) :
    Bool × GameState :=
  if truthyStr s.winner then (false, s)
  else match DIRECTIONS direction with
  | none => (false, s)
  | some off =>
    match playerInfo s name with
    | none => (false, s)
    | some info =>
      if turnBlocked s.current name then (false, s)
      else match getMarble s.board marble with
      | none => (false, s)
      | some marbleColor =>
        if !(marbleColor == info.color) then (false, s)
        else if behindBlocked s.board marble off then (false, s)
        else if boardsEqual (simulate s.board off (collectRun s.board off marble)).1
                  s.lastBoard then
          (false, setCaptured s name
            (info.captured + (simulate s.board off (collectRun s.board off marble)).2))
        else
          (true, commitState s name info (simulate s.board off (collectRun s.board off marble)))

/-- Embedding of KubaGame.get_current_turn. -/
def getCurrentTurn (s : GameState) : Option String := s.current

/-- Embedding of KubaGame.get_winner. -/
def getWinner (s : GameState) : Option String := s.winner

/-- The color recorded for a registered player ("" for an unknown name). -/
def playerColorOf (s : GameState) (name : String) : String :=
  match playerInfo s name with
  | some info => info.color
  | none => ""

/-- The color of the mover's opponent, i.e. of the other registered player. -/
def oppColorOf (s : GameState) (name : String) : String :=
  if name = s.p1Name then s.p2.color else s.p1.color

/-- A valid cell tag: one of the four marble values the game ever stores. -/
def validCell (c : String) : Prop := c = "W" ∨ c = "B" ∨ c = "R" ∨ c = "X"

instance (c : String) : Decidable (validCell c) := by
  unfold validCell; infer_instance

/-- The board invariant: exactly 7 rows of exactly 7 cells, all tags valid. -/
def boardOK (b : Board) : Prop :=
  b.length = 7 ∧ ∀ row ∈ b, row.length = 7 ∧ ∀ c ∈ row, validCell c

instance (b : Board) : Decidable (boardOK b) := by
  unfold boardOK; infer_instance

/-- Well-formedness of a session state.  Every one of these facts holds for
the state produced by kubaInit and is preserved by makeMove, so they hold
in every state a session can be in; see wf_init and wf_step below. -/
structure WF (s : GameState) : Prop where
  hboard : boardOK s.board
  hlast : boardOK s.lastBoard
  hn1 : s.p1Name ≠ ""
  hn2 : s.p2Name ≠ ""
  hnames : s.p1Name ≠ s.p2Name
  hc1 : s.p1.color ∈ (["", "W", "B", "WB"] : List String)
  hc2 : s.p2.color ∈ (["", "W", "B", "WB"] : List String)
  hcolors : s.p1.color ≠ s.p2.color
  hwin : s.winner = none ∨ s.winner = some s.p1Name ∨ s.winner = some s.p2Name
  hcap : s.winner = none → s.p1.captured < 7 ∧ s.p2.captured < 7
  hcount : marbleTotal s.board ≤ marbleTotal s.lastBoard

/-- The session of main(): KubaGame(('PlayerA', 'W'), ('PlayerB', 'B')),
with the two single-letter names used throughout the tests below. -/
def initGame : GameState :=
  { p1Name := "A"
    p1 := { color := "W", captured := 0 }
    p2Name := "B"
    p2 := { color := "B", captured := 0 }
    current := none
    winner := none
    board := initBoard
    lastBoard := initBoard }

/-- The forward chain property of a collected run: every element is one
offset step after the previous one, starting from prev. -/
def fwdChain (off : Pos) : Pos → List Pos → Prop
  | _, [] => True
  | prev, q :: qs => q = stepPos prev off ∧ fwdChain off q qs

/-- The far end of the run q :: qs, the first marble the push loop treats. -/
def lastPos (q : Pos) (qs : List Pos) : Pos := qs.getLastD q

/-- The push loop as a right fold over the run (the source walks the
reversed run with a left fold, which is the same computation). -/
def pushFold (off : Pos) (b : Board) (n : Nat) (run : List Pos) : Board × Nat :=
  run.foldr (fun x acc => simStep off acc x) (b, n)

/-- The catch-all branch of get_marble_count: neither empty, white nor black. -/
def redPred (c : String) : Bool := !(c == "X") && !(c == "W") && !(c == "B")

/-- A decided session: the initial session with the winner set to the first
player, as it stands right after a winning move by "A". -/
def c5State : GameState := { initGame with winner := some "A", current := some "B" }

/-- A board on which white can push the lone black marble off the right
edge in one move. -/
def c6Board : Board :=
  [["X", "X", "X", "X", "X", "X", "X"],
   ["X", "X", "X", "X", "X", "X", "X"],
   ["X", "X", "X", "X", "X", "X", "X"],
   ["X", "X", "X", "X", "X", "W", "B"],
   ["X", "X", "X", "X", "X", "X", "X"],
   ["X", "X", "X", "X", "X", "X", "X"],
   ["X", "X", "X", "X", "X", "X", "X"]]

/-- A session state one move away from clearing black off the board. -/
def c6State : GameState :=
  { initGame with board := c6Board, lastBoard := c6Board, current := some "A" }

/-- The session of main() after A pushes (6,5) forward. -/
def c2Mid1 : GameState := (makeMove initGame "A" (6, 5) "F").2

/-- The same session after B then pushes (6,0) forward: A's marble at (6,6)
now stands alone at the edge with an empty cell behind it. -/
def c2Mid2 : GameState := (makeMove c2Mid1 "B" (6, 0) "F").2

theorem kubaInit_initGame : kubaInit ("A", "W") ("B", "B") = some initGame := by
  decide

/-- Sanity check reproducing the assertions of main() in the source. -/
theorem main_assertions :
    getMarbleCount initGame.board = (8, 8, 13) ∧
    getCaptured initGame "A" = 0 ∧
    getCurrentTurn initGame = none ∧
    getWinner initGame = none ∧
    (makeMove initGame "A" (6, 5) "F").1 = true ∧
    (makeMove (makeMove initGame "A" (6, 5) "F").2 "A" (6, 5) "L").1 = false ∧
    getMarble (makeMove initGame "A" (6, 5) "F").2.board (5, 5) = some "W" := by
  refine ⟨by decide, by decide, rfl, rfl, by decide, by decide, by decide⟩

/-- Summing a mapped list after updating one entry: the old entry's weight
is exchanged for the new one's. -/
theorem sum_map_set {α : Type} (f : α → Nat) :
    ∀ (l : List α) (i : Nat) (x : α) (h : i < l.length),
      ((l.set i x).map f).sum + f l[i] = (l.map f).sum + f x := by
  intro l
  induction l with
  | nil => intro i x h; simp at h
  | cons a l ih =>
      intro i x h
      cases i with
      | zero =>
          show ((x :: l).map f).sum + f a = ((a :: l).map f).sum + f x
          simp only [List.map_cons, List.sum_cons]
          omega
      | succ i =>
          have hi : i < l.length := by simpa using h
          have ih' := ih i x hi
          show ((a :: l.set i x).map f).sum + f l[i] = ((a :: l).map f).sum + f x
          simp only [List.map_cons, List.sum_cons]
          omega


/-- Decomposition of a successful board read into index bounds and a cell. -/
theorem getMarble_eq_some_elim {b : Board} {p : Pos} {v : String}
    (h : getMarble b p = some v) :
    0 ≤ p.1 ∧ 0 ≤ p.2 ∧ ∃ (hr : p.1.toNat < b.length)
      (hc : p.2.toNat < b[p.1.toNat].length), b[p.1.toNat][p.2.toNat] = v := by
  unfold getMarble at h
  split at h
  · exact absurd h (by simp)
  · rename_i hneg
    push_neg at hneg
    rcases hrow : b[p.1.toNat]? with _ | row
    · rw [hrow] at h; exact absurd h (by simp)
    · rw [hrow] at h
      have h2 : row[p.2.toNat]? = some v := h
      have hr : p.1.toNat < b.length := by
        by_contra hge
        rw [List.getElem?_eq_none (by omega)] at hrow; exact absurd hrow (by simp)
      have hrow' : b[p.1.toNat] = row := by
        rw [List.getElem?_eq_getElem hr] at hrow
        exact Option.some.inj hrow
      have hc : p.2.toNat < row.length := by
        by_contra hge
        rw [List.getElem?_eq_none (by omega)] at h2; exact absurd h2 (by simp)
      refine ⟨hneg.1, hneg.2, hr, by rw [hrow']; exact hc, ?_⟩
      rw [List.getElem?_eq_getElem hc] at h2
      have hv := Option.some.inj h2
      subst hrow'
      exact hv

/-- Introduction form of an in-bounds board read. -/
theorem getMarble_eq_some_intro {b : Board} {p : Pos}
    (hp1 : 0 ≤ p.1) (hp2 : 0 ≤ p.2) (hr : p.1.toNat < b.length)
    (hc : p.2.toNat < b[p.1.toNat].length) :
    getMarble b p = some b[p.1.toNat][p.2.toNat] := by
  unfold getMarble
  rw [if_neg (by omega)]
  rw [List.getElem?_eq_getElem hr]
  exact List.getElem?_eq_getElem hc

/-- A read at an in-bounds position after setCell at that same position. -/
theorem getMarble_setCell_self {b : Board} {p : Pos} (v : String)
    (h : (getMarble b p).isSome = true) :
    getMarble (setCell b p v) p = some v := by
  rcases Option.isSome_iff_exists.mp h with ⟨w, hw⟩
  obtain ⟨hp1, hp2, hr, hc, _⟩ := getMarble_eq_some_elim hw
  unfold setCell
  rw [if_neg (by omega)]
  unfold getMarble
  rw [if_neg (by omega)]
  have hlen : p.1.toNat < (b.set p.1.toNat ((b.getD p.1.toNat []).set p.2.toNat v)).length := by
    rw [List.length_set]; exact hr
  rw [List.getElem?_eq_getElem hlen, List.getElem_set_self]
  have hgetD : b.getD p.1.toNat [] = b[p.1.toNat] := by
    rw [List.getD_eq_getElem?_getD, List.getElem?_eq_getElem hr]; rfl
  rw [hgetD]
  exact List.getElem?_set_self hc

/-- A setCell away from q does not change the read at q. -/
theorem getMarble_setCell_ne {b : Board} {p q : Pos} (v : String) (hne : q ≠ p) :
    getMarble (setCell b p v) q = getMarble b q := by
  unfold setCell
  split
  · rfl
  rename_i hpneg
  push_neg at hpneg
  unfold getMarble
  split
  · rfl
  rename_i hqneg
  push_neg at hqneg
  by_cases hrow : p.1.toNat = q.1.toNat
  · have hp1q1 : p.1 = q.1 := by omega
    have hcne : p.2.toNat ≠ q.2.toNat := by
      intro hc
      exact hne (Prod.ext (hp1q1.symm) (by omega))
    rw [← hrow]
    by_cases hr : p.1.toNat < b.length
    · rw [List.getElem?_eq_getElem (by rw [List.length_set]; exact hr),
        List.getElem_set_self, List.getElem?_eq_getElem hr]
      have hgetD : b.getD p.1.toNat [] = b[p.1.toNat] := by
        rw [List.getD_eq_getElem?_getD, List.getElem?_eq_getElem hr]; rfl
      rw [hgetD]
      exact List.getElem?_set_ne hcne
    · rw [List.set_eq_of_length_le (by omega)]
  · rw [List.getElem?_set_ne hrow]

/-- A board read succeeds exactly on in-bounds positions. -/
theorem getMarble_isSome_iff (b : Board) (q : Pos) :
    (getMarble b q).isSome = true ↔
      0 ≤ q.1 ∧ 0 ≤ q.2 ∧ q.1.toNat < b.length ∧
        q.2.toNat < (b.getD q.1.toNat []).length := by
  constructor
  · intro h
    rcases Option.isSome_iff_exists.mp h with ⟨v, hv⟩
    obtain ⟨h1, h2, hr, hc, _⟩ := getMarble_eq_some_elim hv
    have hgetD : b.getD q.1.toNat [] = b[q.1.toNat] := by
      rw [List.getD_eq_getElem?_getD, List.getElem?_eq_getElem hr]; rfl
    exact ⟨h1, h2, hr, by rw [hgetD]; exact hc⟩
  · rintro ⟨h1, h2, hr, hc⟩
    have hgetD : b.getD q.1.toNat [] = b[q.1.toNat] := by
      rw [List.getD_eq_getElem?_getD, List.getElem?_eq_getElem hr]; rfl
    rw [hgetD] at hc
    rw [getMarble_eq_some_intro h1 h2 hr hc]
    rfl

/-- setCell keeps the number of rows. -/
theorem setCell_length (b : Board) (p : Pos) (v : String) :
    (setCell b p v).length = b.length := by
  unfold setCell
  split
  · rfl
  · exact List.length_set b p.1.toNat _

/-- setCell keeps the length of every row. -/
theorem setCell_rowlen (b : Board) (p : Pos) (v : String) (i : Nat) :
    ((setCell b p v).getD i []).length = (b.getD i []).length := by
  unfold setCell
  split
  · rfl
  by_cases hir : p.1.toNat = i
  · subst hir
    by_cases hr : p.1.toNat < b.length
    · have h1 : (b.set p.1.toNat ((b.getD p.1.toNat []).set p.2.toNat v)).getD p.1.toNat []
          = (b.getD p.1.toNat []).set p.2.toNat v := by
        rw [List.getD_eq_getElem?_getD,
          List.getElem?_eq_getElem (by rw [List.length_set]; exact hr),
          List.getElem_set_self]
        rfl
      rw [h1, List.length_set]
    · rw [List.set_eq_of_length_le (by omega)]
  · rw [List.getD_eq_getElem?_getD, List.getElem?_set_ne hir, ← List.getD_eq_getElem?_getD]

/-- setCell never changes which positions are on the board. -/
theorem getMarble_setCell_isSome (b : Board) (p : Pos) (v : String) (q : Pos) :
    (getMarble (setCell b p v) q).isSome = (getMarble b q).isSome := by
  have h1 := getMarble_isSome_iff (setCell b p v) q
  have h2 := getMarble_isSome_iff b q
  rw [setCell_length, setCell_rowlen] at h1
  cases hs : (getMarble b q).isSome
  · cases hs' : (getMarble (setCell b p v) q).isSome
    · rfl
    · exact absurd (h2.mpr (h1.mp hs')) (by rw [hs]; simp)
  · cases hs' : (getMarble (setCell b p v) q).isSome
    · exact absurd (h1.mpr (h2.mp hs)) (by rw [hs']; simp)
    · rfl

/-- Reading the cell value behind a successful read. -/
theorem cellAt_eq_of_getMarble {b : Board} {p : Pos} {v : String}
    (h : getMarble b p = some v) : cellAt b p = v := by
  unfold cellAt; rw [h]; rfl

/-- The cell just written by setCell. -/
theorem cellAt_setCell_self {b : Board} {p : Pos} (v : String)
    (h : (getMarble b p).isSome = true) : cellAt (setCell b p v) p = v :=
  cellAt_eq_of_getMarble (getMarble_setCell_self v h)

/-- Cells away from a setCell are untouched. -/
theorem cellAt_setCell_ne {b : Board} {p q : Pos} (v : String) (hne : q ≠ p) :
    cellAt (setCell b p v) q = cellAt b q := by
  unfold cellAt; rw [getMarble_setCell_ne v hne]

/-- Writing v at an in-bounds position exchanges the weight of the old cell
for the weight of v in the total marble count. -/
theorem marbleTotal_setCell {b : Board} {p : Pos} (v : String)
    (h : (getMarble b p).isSome = true) :
    marbleTotal (setCell b p v) + marbleWeight (cellAt b p)
      = marbleTotal b + marbleWeight v := by
  rcases Option.isSome_iff_exists.mp h with ⟨w, hw⟩
  obtain ⟨hp1, hp2, hr, hc, hv⟩ := getMarble_eq_some_elim hw
  have hgetD : b.getD p.1.toNat [] = b[p.1.toNat] := by
    rw [List.getD_eq_getElem?_getD, List.getElem?_eq_getElem hr]; rfl
  have hset : setCell b p v = b.set p.1.toNat (b[p.1.toNat].set p.2.toNat v) := by
    unfold setCell
    rw [if_neg (by omega), hgetD]
  have houter := sum_map_set (fun row => (row.map marbleWeight).sum) b p.1.toNat
    (b[p.1.toNat].set p.2.toNat v) hr
  have hinner := sum_map_set marbleWeight b[p.1.toNat] p.2.toNat v hc
  have hcell : cellAt b p = b[p.1.toNat][p.2.toNat] := by
    rw [cellAt_eq_of_getMarble hw, hv]
  unfold marbleTotal
  rw [hset, hcell]
  omega

/-- Values stored on a well-formed board are valid tags. -/
theorem validCell_of_getMarble {b : Board} {p : Pos} {v : String}
    (hb : boardOK b) (h : getMarble b p = some v) : validCell v := by
  obtain ⟨hp1, hp2, hr, hc, hv⟩ := getMarble_eq_some_elim h
  have hrow : b[p.1.toNat] ∈ b := List.getElem_mem hr
  have hcell : b[p.1.toNat][p.2.toNat] ∈ b[p.1.toNat] := List.getElem_mem hc
  rw [← hv]
  exact ((hb.2 _ hrow).2 _ hcell)

/-- The cellAt read, defaulted or not, is valid on a well-formed board. -/
theorem validCell_cellAt {b : Board} (hb : boardOK b) (p : Pos) :
    validCell (cellAt b p) := by
  rcases hm : getMarble b p with _ | v
  · unfold cellAt; rw [hm]; right; right; right; rfl
  · rw [cellAt_eq_of_getMarble hm]; exact validCell_of_getMarble hb hm

/-- setCell with a valid value keeps the board well-formed. -/
theorem boardOK_setCell {b : Board} {v : String} (hb : boardOK b)
    (hv : validCell v) (p : Pos) : boardOK (setCell b p v) := by
  unfold setCell
  split
  · exact hb
  constructor
  · rw [List.length_set]; exact hb.1
  · intro row hrow
    by_cases hr : p.1.toNat < b.length
    · rcases List.mem_or_eq_of_mem_set hrow with hmem | heq
      · exact hb.2 row hmem
      · subst heq
        have hgetD : b.getD p.1.toNat [] = b[p.1.toNat] := by
          rw [List.getD_eq_getElem?_getD, List.getElem?_eq_getElem hr]; rfl
        have hmem : b[p.1.toNat] ∈ b := List.getElem_mem hr
        obtain ⟨hlen, hcells⟩ := hb.2 _ hmem
        constructor
        · rw [List.length_set, hgetD]; exact hlen
        · intro c hcmem
          rcases List.mem_or_eq_of_mem_set hcmem with hcm | hceq
          · rw [hgetD] at hcm; exact hcells c hcm
          · subst hceq; exact hv
    · rw [List.set_eq_of_length_le (by omega)] at hrow
      exact hb.2 row hrow

theorem marbleWeight_of_eqX {c : String} (h : (c == "X") = true) :
    marbleWeight c = 0 := by
  unfold marbleWeight; rw [h]; rfl

theorem marbleWeight_of_neX {c : String} (h : (c == "X") = false) :
    marbleWeight c = 1 := by
  unfold marbleWeight; rw [h]; rfl

theorem stepPos_ne {off : Pos} (hoff : ¬(off.1 = 0 ∧ off.2 = 0)) (p : Pos) :
    stepPos p off ≠ p := by
  intro h
  apply hoff
  have h1 : p.1 + off.1 = p.1 := congrArg Prod.fst h
  have h2 : p.2 + off.2 = p.2 := congrArg Prod.snd h
  omega

/-- A push step whose destination is on the board, fully described: it moves
the value, blanks the source, keeps the count up to the overwritten
destination's weight, and changes no extent. -/
theorem simStep_inBounds {off : Pos} {B : Board} {nn : Nat} {p : Pos}
    (hp : (getMarble B p).isSome = true)
    (hd : (getMarble B (stepPos p off)).isSome = true)
    (hne : stepPos p off ≠ p) :
    simStep off (B, nn) p
      = (setCell (setCell B (stepPos p off) (cellAt B p)) p "X", nn) ∧
    marbleTotal (setCell (setCell B (stepPos p off) (cellAt B p)) p "X")
        + marbleWeight (cellAt B (stepPos p off)) = marbleTotal B ∧
    cellAt (setCell (setCell B (stepPos p off) (cellAt B p)) p "X") p = "X" ∧
    ∀ r, (getMarble (setCell (setCell B (stepPos p off) (cellAt B p)) p "X") r).isSome
           = (getMarble B r).isSome := by
  rcases Option.isSome_iff_exists.mp hd with ⟨w, hw⟩
  have hstep : simStep off (B, nn) p
      = (setCell (setCell B (stepPos p off) (cellAt B p)) p "X", nn) := by
    unfold simStep
    rw [hw]
  have hpA : (getMarble (setCell B (stepPos p off) (cellAt B p)) p).isSome = true := by
    rw [getMarble_setCell_isSome]; exact hp
  have h1 : marbleTotal (setCell B (stepPos p off) (cellAt B p))
      + marbleWeight (cellAt B (stepPos p off))
      = marbleTotal B + marbleWeight (cellAt B p) := marbleTotal_setCell _ hd
  have h2 : marbleTotal (setCell (setCell B (stepPos p off) (cellAt B p)) p "X")
      + marbleWeight (cellAt (setCell B (stepPos p off) (cellAt B p)) p)
      = marbleTotal (setCell B (stepPos p off) (cellAt B p)) + marbleWeight "X" :=
    marbleTotal_setCell _ hpA
  have hAp : cellAt (setCell B (stepPos p off) (cellAt B p)) p = cellAt B p :=
    cellAt_setCell_ne _ (Ne.symm hne)
  have hwX : marbleWeight "X" = 0 := rfl
  refine ⟨hstep, by rw [hAp] at h2; omega, cellAt_setCell_self _ hpA, fun r => ?_⟩
  rw [getMarble_setCell_isSome, getMarble_setCell_isSome]

/-- The collected run extends by one offset step at a time. -/
theorem collectFrom_chain (b : Board) (off : Pos) :
    ∀ (fuel : Nat) (last : Pos), fwdChain off last (collectFrom b off last fuel) := by
  intro fuel
  induction fuel with
  | zero => intro last; exact trivial
  | succ n ih =>
      intro last
      unfold collectFrom
      split
      · exact trivial
      · split
        · exact trivial
        · exact ⟨rfl, ih (stepPos last off)⟩

/-- Every collected position holds a non-empty cell on the board. -/
theorem collectFrom_mem (b : Board) (off : Pos) :
    ∀ (fuel : Nat) (last q : Pos), q ∈ collectFrom b off last fuel →
      ∃ c, getMarble b q = some c ∧ (c == "X") = false := by
  intro fuel
  induction fuel with
  | zero => intro last q h; exact absurd h (by simp [collectFrom])
  | succ n ih =>
      intro last q h
      unfold collectFrom at h
      split at h
      · exact absurd h (by simp)
      · rename_i c hm
        split at h
        · exact absurd h (by simp)
        · rename_i hX
          rcases List.mem_cons.mp h with heq | hmem
          · subst heq; exact ⟨c, hm, by simpa using hX⟩
          · exact ih _ q hmem

theorem simulate_eq_pushFold (b : Board) (off : Pos) (run : List Pos) :
    simulate b off run = pushFold off b 0 run := by
  unfold simulate pushFold
  exact List.foldl_reverse run (simStep off) (b, 0)

theorem lastPos_cons (q a : Pos) (l : List Pos) :
    lastPos q (a :: l) = lastPos a l := by
  unfold lastPos
  exact List.getLastD_cons q a l

/-- Full description of the push loop on a chained run q :: qs whose
positions are all on the board and whose far-end cell is not empty: the
board extent never changes; when the far destination is off the board the
counter grows exactly by the far cell being red and the marble total drops
by one exactly when the run has length at least two (a run of length one
leaves the board untouched, the far cell is never blanked); when the far
destination is on the board the counter is unchanged and the total drops by
at most one; and the head cell ends empty except in the untouched case. -/
theorem pushFold_spec {off : Pos} (hoff : ¬(off.1 = 0 ∧ off.2 = 0)) :
    ∀ (qs : List Pos) (q : Pos) (b : Board) (n : Nat),
      fwdChain off q qs →
      (getMarble b q).isSome = true →
      (∀ p ∈ qs, (getMarble b p).isSome = true) →
      (cellAt b (lastPos q qs) == "X") = false →
      (∀ r, (getMarble (pushFold off b n (q :: qs)).1 r).isSome
          = (getMarble b r).isSome) ∧
      (getMarble b (stepPos (lastPos q qs) off) = none →
        (pushFold off b n (q :: qs)).2
            = n + (if cellAt b (lastPos q qs) == "R" then 1 else 0) ∧
        (qs = [] → (pushFold off b n (q :: qs)).1 = b) ∧
        (qs ≠ [] → marbleTotal (pushFold off b n (q :: qs)).1 + 1 = marbleTotal b)) ∧
      ((getMarble b (stepPos (lastPos q qs) off)).isSome = true →
        (pushFold off b n (q :: qs)).2 = n ∧
        (marbleTotal (pushFold off b n (q :: qs)).1 = marbleTotal b ∨
          marbleTotal (pushFold off b n (q :: qs)).1 + 1 = marbleTotal b)) ∧
      ((qs ≠ [] ∨ (getMarble b (stepPos (lastPos q qs) off)).isSome = true) →
        cellAt (pushFold off b n (q :: qs)).1 q = "X") := by
  intro qs
  induction qs with
  | nil =>
      intro q b n hchain hq hqs hlastX
      have hlp : lastPos q ([] : List Pos) = q := rfl
      rw [hlp] at hlastX ⊢
      rcases hstop : getMarble b (stepPos q off) with _ | w
      · have hres : pushFold off b n [q] = (b, if cellAt b q == "R" then n + 1 else n) := by
          show simStep off (b, n) q = _
          unfold simStep
          rw [hstop]
        have hres1 : (pushFold off b n [q]).1 = b := by rw [hres]
        have hres2 : (pushFold off b n [q]).2
            = if cellAt b q == "R" then n + 1 else n := by rw [hres]
        refine ⟨fun r => by rw [hres1], fun _ => ⟨?_, fun _ => hres1, fun hne => absurd rfl hne⟩,
          fun hsome => ?_, ?_⟩
        · rw [hres2]
          by_cases hR : (cellAt b q == "R") = true
          · simp [hR]
          · simp [hR]
        · exact absurd hsome (by simp)
        · rintro (hne | hsome)
          · exact absurd rfl hne
          · exact absurd hsome (by simp)
      · have hd : (getMarble b (stepPos q off)).isSome = true := by rw [hstop]; rfl
        obtain ⟨hstep, hcount, hcell, hshape⟩ := simStep_inBounds hq hd (stepPos_ne hoff q)
        have hresAll : pushFold off b n [q]
            = (setCell (setCell b (stepPos q off) (cellAt b q)) q "X", n) := hstep
        have hres1 : (pushFold off b n [q]).1
            = setCell (setCell b (stepPos q off) (cellAt b q)) q "X" := by rw [hresAll]
        have hres2 : (pushFold off b n [q]).2 = n := by rw [hresAll]
        refine ⟨fun r => by rw [hres1]; exact hshape r,
          fun hnone => absurd hnone (by simp),
          fun _ => ⟨hres2, ?_⟩, fun _ => by rw [hres1]; exact hcell⟩
        rw [hres1]
        by_cases hX : (cellAt b (stepPos q off) == "X") = true
        · have hw0 := marbleWeight_of_eqX hX
          left; omega
        · have hw1 := marbleWeight_of_neX (by simpa using hX)
          right; omega
  | cons q2 qs2 ih =>
      intro q b n hchain hq hqs hlastX
      obtain ⟨hq2, hchain2⟩ := hchain
      have hlpc : lastPos q (q2 :: qs2) = lastPos q2 qs2 := lastPos_cons q q2 qs2
      rw [hlpc] at hlastX ⊢
      have hq2mem : (getMarble b q2).isSome = true := hqs q2 (List.mem_cons_self q2 qs2)
      have hqs2 : ∀ p ∈ qs2, (getMarble b p).isSome = true :=
        fun p hp => hqs p (List.mem_cons_of_mem q2 hp)
      obtain ⟨ihshape, ihoff, ihin, ihcell⟩ := ih q2 b n hchain2 hq2mem hqs2 hlastX
      have hpR : (getMarble (pushFold off b n (q2 :: qs2)).1 q).isSome = true := by
        rw [ihshape q]; exact hq
      have hdR : (getMarble (pushFold off b n (q2 :: qs2)).1 (stepPos q off)).isSome
          = true := by
        rw [ihshape (stepPos q off), ← hq2]; exact hq2mem
      obtain ⟨hstep, hcount, hcell, hshape⟩ := simStep_inBounds hpR hdR (stepPos_ne hoff q)
      have hresAll : pushFold off b n (q :: q2 :: qs2)
          = (setCell (setCell (pushFold off b n (q2 :: qs2)).1 (stepPos q off)
               (cellAt (pushFold off b n (q2 :: qs2)).1 q)) q "X",
             (pushFold off b n (q2 :: qs2)).2) := hstep
      have hres1 : (pushFold off b n (q :: q2 :: qs2)).1
          = setCell (setCell (pushFold off b n (q2 :: qs2)).1 (stepPos q off)
               (cellAt (pushFold off b n (q2 :: qs2)).1 q)) q "X" := by rw [hresAll]
      have hres2 : (pushFold off b n (q :: q2 :: qs2)).2
          = (pushFold off b n (q2 :: qs2)).2 := by rw [hresAll]
      refine ⟨fun r => by rw [hres1, hshape r, ihshape r], fun hnone => ?_,
        fun hsome => ?_, fun _ => by rw [hres1]; exact hcell⟩
      · obtain ⟨ihn, ihb, ihcount⟩ := ihoff hnone
        refine ⟨by rw [hres2, ihn], fun hcons => absurd hcons (by simp), fun _ => ?_⟩
        rw [hres1]
        by_cases hqs2e : qs2 = []
        · have hb : (pushFold off b n (q2 :: qs2)).1 = b := ihb hqs2e
          have hl2 : lastPos q2 qs2 = q2 := by rw [hqs2e]; rfl
          have hcw : marbleWeight (cellAt (pushFold off b n (q2 :: qs2)).1 (stepPos q off))
              = 1 := by
            rw [← hq2, hb]
            exact marbleWeight_of_neX (by rw [← hl2]; exact hlastX)
          have hT2 : marbleTotal (pushFold off b n (q2 :: qs2)).1 = marbleTotal b := by
            rw [hb]
          omega
        · have hcX : cellAt (pushFold off b n (q2 :: qs2)).1 q2 = "X" :=
            ihcell (Or.inl hqs2e)
          have hcw : marbleWeight (cellAt (pushFold off b n (q2 :: qs2)).1 (stepPos q off))
              = 0 := by
            rw [← hq2, hcX]; rfl
          have hic := ihcount hqs2e
          omega
      · obtain ⟨ihn, ihd⟩ := ihin hsome
        have hcX : cellAt (pushFold off b n (q2 :: qs2)).1 q2 = "X" :=
          ihcell (Or.inr hsome)
        refine ⟨by rw [hres2, ihn], ?_⟩
        rw [hres1]
        have hcw : marbleWeight (cellAt (pushFold off b n (q2 :: qs2)).1 (stepPos q off))
            = 0 := by
          rw [← hq2, hcX]; rfl
        rcases ihd with hEq | hDec
        · left; omega
        · right; omega

/-- An indexed all over enumFrom, as a plain quantifier over positions. -/
theorem enumFrom_all_iff {α : Type} (p : Nat × α → Bool) :
    ∀ (l : List α) (n : Nat),
      ((List.enumFrom n l).all p = true) ↔
        ∀ i (h : i < l.length), p (n + i, l[i]) = true := by
  intro l
  induction l with
  | nil => intro n; simp
  | cons x xs ih =>
      intro n
      rw [show List.enumFrom n (x :: xs) = (n, x) :: List.enumFrom (n + 1) xs from rfl,
        List.all_cons, Bool.and_eq_true, ih (n + 1)]
      constructor
      · rintro ⟨hx, hall⟩ i h
        cases i with
        | zero => simpa using hx
        | succ j =>
            have hj : j < xs.length := by simpa using h
            have hthis := hall j hj
            have hidx : n + 1 + j = n + (j + 1) := by omega
            rw [hidx] at hthis
            simpa using hthis
      · intro hall
        refine ⟨by simpa using hall 0 (by simp), fun j hj => ?_⟩
        have hthis := hall (j + 1) (by simpa using hj)
        have hidx : n + 1 + j = n + (j + 1) := by omega
        rw [hidx]
        simpa using hthis

/-- Row-level reading of the _boards_equal inner loop. -/
theorem rowEq_iff (row brow : List String) (hlen : row.length = brow.length) :
    ((row.enum.all fun ccell => ccell.2 == brow.getD ccell.1 "") = true) ↔
      row = brow := by
  rw [show row.enum = List.enumFrom 0 row from rfl,
    enumFrom_all_iff (fun ccell => ccell.2 == brow.getD ccell.1 "") row 0]
  constructor
  · intro h
    apply List.ext_getElem hlen
    intro i h1 h2
    have hthis := h i h1
    simp only [Nat.zero_add] at hthis
    rw [List.getD_eq_getElem?_getD, List.getElem?_eq_getElem h2] at hthis
    simpa using hthis
  · intro h
    subst h
    intro i hi
    simp only [Nat.zero_add]
    rw [List.getD_eq_getElem?_getD, List.getElem?_eq_getElem hi]
    simp

/-- On two 7 by 7 boards, _boards_equal decides exact equality. -/
theorem boardsEqual_iff {a b : Board} (ha : boardOK a) (hb : boardOK b) :
    (boardsEqual a b = true) ↔ a = b := by
  unfold boardsEqual
  rw [show a.enum = List.enumFrom 0 a from rfl,
    enumFrom_all_iff
      (fun rrow => rrow.2.enum.all fun ccell => ccell.2 == (b.getD rrow.1 []).getD ccell.1 "")
      a 0]
  have hlen : a.length = b.length := by rw [ha.1, hb.1]
  constructor
  · intro h
    apply List.ext_getElem hlen
    intro r h1 h2
    have hthis := h r h1
    simp only [Nat.zero_add] at hthis
    have hbD : b.getD r [] = b[r] := by
      rw [List.getD_eq_getElem?_getD, List.getElem?_eq_getElem h2]; rfl
    rw [hbD] at hthis
    have hrl : a[r].length = b[r].length := by
      rw [(ha.2 a[r] (List.getElem_mem h1)).1, (hb.2 b[r] (List.getElem_mem h2)).1]
    exact (rowEq_iff a[r] b[r] hrl).mp hthis
  · intro h
    subst h
    intro r hr
    simp only [Nat.zero_add]
    have hbD : a.getD r [] = a[r] := by
      rw [List.getD_eq_getElem?_getD, List.getElem?_eq_getElem hr]; rfl
    rw [hbD]
    exact (rowEq_iff a[r] a[r] rfl).mpr rfl

theorem foldl_countStep_row :
    ∀ (row : List String) (acc : Nat × Nat × Nat),
      row.foldl countStep acc
        = (acc.1 + (row.filter (fun c => c == "W")).length,
           acc.2.1 + (row.filter (fun c => c == "B")).length,
           acc.2.2 + (row.filter redPred).length) := by
  intro row
  induction row with
  | nil => intro acc; simp
  | cons c row ih =>
      intro acc
      rw [List.foldl_cons, ih (countStep acc c)]
      by_cases hX : c = "X"
      · subst hX
        simp [countStep, redPred, List.filter_cons]
      · by_cases hW : c = "W"
        · subst hW
          simp [countStep, redPred, List.filter_cons]
          omega
        · by_cases hB : c = "B"
          · subst hB
            simp [countStep, redPred, List.filter_cons]
            omega
          · simp [countStep, redPred, List.filter_cons, hX, hW, hB]
            omega

theorem getMarbleCount_eq (b : Board) :
    getMarbleCount b
      = (colorCount b "W", colorCount b "B",
         (b.map (fun row => (row.filter redPred).length)).sum) := by
  suffices h : ∀ (rows : List (List String)) (acc : Nat × Nat × Nat),
      rows.foldl (fun acc row => row.foldl countStep acc) acc
        = (acc.1 + colorCount rows "W", acc.2.1 + colorCount rows "B",
           acc.2.2 + (rows.map (fun row => (row.filter redPred).length)).sum) by
    unfold getMarbleCount
    rw [h b (0, 0, 0)]
    simp
  intro rows
  induction rows with
  | nil => intro acc; simp [colorCount]
  | cons row rows ih =>
      intro acc
      rw [List.foldl_cons, foldl_countStep_row row acc, ih]
      simp [colorCount, List.map_cons, List.sum_cons]
      omega

theorem getMarbleCount_white (b : Board) :
    (getMarbleCount b).1 = colorCount b "W" := by rw [getMarbleCount_eq]

theorem getMarbleCount_black (b : Board) :
    (getMarbleCount b).2.1 = colorCount b "B" := by rw [getMarbleCount_eq]

theorem DIRECTIONS_ne_zero {d : String} {off : Pos} (h : DIRECTIONS d = some off) :
    ¬(off.1 = 0 ∧ off.2 = 0) := by
  unfold DIRECTIONS at h
  split_ifs at h <;>
    (obtain (h2 : _ = off) := Option.some.inj h; subst h2; decide)

theorem lastPos_mem {qs : List Pos} (h : qs ≠ []) : ∀ q, lastPos q qs ∈ qs := by
  induction qs with
  | nil => exact absurd rfl h
  | cons a l ih =>
      intro q
      rw [lastPos_cons]
      by_cases hl : l = []
      · subst hl; exact List.mem_cons_self a []
      · exact List.mem_cons_of_mem a (ih hl a)

theorem playerInfo_cases {s : GameState} {name : String} {info : PlayerInfo}
    (h : playerInfo s name = some info) : info = s.p1 ∨ info = s.p2 := by
  unfold playerInfo at h
  split_ifs at h
  · exact Or.inl (Option.some.inj h).symm
  · exact Or.inr (Option.some.inj h).symm

theorem playerInfo_name_cases {s : GameState} {name : String} {info : PlayerInfo}
    (h : playerInfo s name = some info) : name = s.p1Name ∨ name = s.p2Name := by
  unfold playerInfo at h
  split_ifs at h with hA hB
  · exact Or.inl hA
  · exact Or.inr hB

theorem setCaptured_self {s : GameState} {name : String} {info : PlayerInfo}
    (h : playerInfo s name = some info) : setCaptured s name info.captured = s := by
  unfold playerInfo at h
  unfold setCaptured
  split_ifs at h ⊢ with hA hB
  · rw [← Option.some.inj h]
  · rw [← Option.some.inj h]

/-- On a well-formed state, the color of a marble the mover owns is the
mover's color and must be the one-character white or black tag. -/
theorem moverColor_WB {s : GameState} {name : String} {info : PlayerInfo}
    {marble : Pos} {mc : String} (hWF : WF s)
    (hinfo : playerInfo s name = some info)
    (h5 : getMarble s.board marble = some mc) (h6 : mc = info.color) :
    mc = "W" ∨ mc = "B" := by
  have hvalid : validCell mc := validCell_of_getMarble hWF.hboard h5
  have hdom : mc ∈ (["", "W", "B", "WB"] : List String) := by
    rcases playerInfo_cases hinfo with hi | hi
    · rw [h6, hi]; exact hWF.hc1
    · rw [h6, hi]; exact hWF.hc2
  rcases hvalid with hW | hB | hR | hX
  · exact Or.inl hW
  · exact Or.inr hB
  · rw [hR] at hdom; exact absurd hdom (by decide)
  · rw [hX] at hdom; exact absurd hdom (by decide)

/-- The push loop preserves board well-formedness. -/
theorem pushFold_boardOK {off : Pos} {b : Board} {n : Nat} (hb : boardOK b) :
    ∀ run, boardOK (pushFold off b n run).1 := by
  intro run
  induction run with
  | nil => exact hb
  | cons q rest ih =>
      show boardOK (simStep off (pushFold off b n rest) q).1
      unfold simStep
      split
      · exact boardOK_setCell
          (boardOK_setCell ih (validCell_cellAt ih q) (stepPos q off))
          (by right; right; right; rfl) q
      · exact ih

theorem simulate_boardOK {b : Board} (hb : boardOK b) (off : Pos) (run : List Pos) :
    boardOK (simulate b off run).1 := by
  rw [simulate_eq_pushFold]
  exact pushFold_boardOK hb run

/-- Consolidated description of the simulated push for a move whose clicked
marble holds the mover's one-character color: the board extent is kept, at
most one capture is counted, a counted capture means the marble total
dropped by exactly one, and the total never drops by more than one. -/
theorem sim_spec {b : Board} {off marble : Pos} {mc : String}
    (hoffne : ¬(off.1 = 0 ∧ off.2 = 0))
    (h5 : getMarble b marble = some mc)
    (hmcWB : mc = "W" ∨ mc = "B") :
    (∀ r, (getMarble (simulate b off (collectRun b off marble)).1 r).isSome
        = (getMarble b r).isSome) ∧
    (simulate b off (collectRun b off marble)).2 ≤ 1 ∧
    (1 ≤ (simulate b off (collectRun b off marble)).2 →
      marbleTotal (simulate b off (collectRun b off marble)).1 + 1 = marbleTotal b) ∧
    (marbleTotal (simulate b off (collectRun b off marble)).1 = marbleTotal b ∨
      marbleTotal (simulate b off (collectRun b off marble)).1 + 1 = marbleTotal b) := by
  have hrun : collectRun b off marble = marble :: collectFrom b off marble 49 := rfl
  have hchain : fwdChain off marble (collectFrom b off marble 49) :=
    collectFrom_chain b off 49 marble
  have hq : (getMarble b marble).isSome = true := by rw [h5]; rfl
  have hmems : ∀ p ∈ collectFrom b off marble 49, (getMarble b p).isSome = true := by
    intro p hp
    rcases collectFrom_mem b off 49 marble p hp with ⟨c, hc, _⟩
    rw [hc]; rfl
  have hmcX : (mc == "X") = false := by
    rcases hmcWB with hW | hB
    · rw [hW]; decide
    · rw [hB]; decide
  have hmcR : (mc == "R") = false := by
    rcases hmcWB with hW | hB
    · rw [hW]; decide
    · rw [hB]; decide
  have hlastX : (cellAt b (lastPos marble (collectFrom b off marble 49)) == "X") = false := by
    by_cases hext : collectFrom b off marble 49 = []
    · rw [hext]
      show (cellAt b marble == "X") = false
      rw [cellAt_eq_of_getMarble h5]
      exact hmcX
    · rcases collectFrom_mem b off 49 marble _ (lastPos_mem hext marble) with ⟨c, hc, hcX⟩
      rw [cellAt_eq_of_getMarble hc]
      exact hcX
  obtain ⟨hshape, hoffc, hinc, hcellc⟩ :=
    pushFold_spec hoffne (collectFrom b off marble 49) marble b 0 hchain hq hmems hlastX
  rw [simulate_eq_pushFold, hrun]
  rcases hstop : getMarble b (stepPos (lastPos marble (collectFrom b off marble 49)) off)
      with _ | w
  · obtain ⟨hn, hb1, hcount⟩ := hoffc hstop
    by_cases hext : collectFrom b off marble 49 = []
    · have hlp : lastPos marble (collectFrom b off marble 49) = marble := by
        rw [hext]; rfl
      have hbitR : (cellAt b (lastPos marble (collectFrom b off marble 49)) == "R")
          = false := by
        rw [hlp, cellAt_eq_of_getMarble h5]; exact hmcR
      rw [hbitR] at hn
      simp at hn
      refine ⟨hshape, by omega, by omega, Or.inl (by rw [hb1 hext])⟩
    · have hc1 := hcount hext
      refine ⟨hshape, ?_, fun _ => hc1, Or.inr hc1⟩
      rw [hn]
      by_cases hbit : (cellAt b (lastPos marble (collectFrom b off marble 49)) == "R") = true
      · rw [hbit]; simp
      · rw [Bool.not_eq_true] at hbit
        rw [hbit]; simp
  · have hsome : (getMarble b
        (stepPos (lastPos marble (collectFrom b off marble 49)) off)).isSome = true := by
      rw [hstop]; rfl
    obtain ⟨hn, hdisj⟩ := hinc hsome
    exact ⟨hshape, by omega, by omega, hdisj⟩

/-- Exhaustive outcome analysis of make_move: a validation-chain rejection
returns the state untouched; otherwise the move reaches the simulation and
either fails the repetition test (board restored, captured update kept) or
commits. -/
theorem makeMove_outcomes (s : GameState) (name : String) (marble : Pos) (d : String) :
    makeMove s name marble d = (false, s) ∨
    ∃ off info mc,
      truthyStr s.winner = false ∧
      DIRECTIONS d = some off ∧
      playerInfo s name = some info ∧
      turnBlocked s.current name = false ∧
      getMarble s.board marble = some mc ∧
      mc = info.color ∧
      behindBlocked s.board marble off = false ∧
      ((boardsEqual (simulate s.board off (collectRun s.board off marble)).1
            s.lastBoard = true ∧
         makeMove s name marble d = (false, setCaptured s name
           (info.captured + (simulate s.board off (collectRun s.board off marble)).2))) ∨
       (boardsEqual (simulate s.board off (collectRun s.board off marble)).1
            s.lastBoard = false ∧
         makeMove s name marble d = (true, commitState s name info
           (simulate s.board off (collectRun s.board off marble))))) := by
  unfold makeMove
  split
  · exact Or.inl rfl
  rename_i h1
  split
  · exact Or.inl rfl
  rename_i off h2
  split
  · exact Or.inl rfl
  rename_i info h3
  split
  · exact Or.inl rfl
  rename_i h4
  split
  · exact Or.inl rfl
  rename_i mc h5
  split
  · exact Or.inl rfl
  rename_i h6
  split
  · exact Or.inl rfl
  rename_i h7
  split
  · rename_i h8
    exact Or.inr ⟨off, info, mc, by simpa using h1, h2, h3, by simpa using h4,
      h5, by simpa using h6, by simpa using h7, Or.inl ⟨h8, rfl⟩⟩
  · rename_i h8
    exact Or.inr ⟨off, info, mc, by simpa using h1, h2, h3, by simpa using h4,
      h5, by simpa using h6, by simpa using h7, Or.inr ⟨by simpa using h8, rfl⟩⟩

/-- When checks 1 through 7 pass, make_move is exactly the simulate-then-
repetition-test computation. -/
theorem makeMove_checked {s : GameState} {name : String} {marble : Pos} {d : String}
    {off : Pos} {info : PlayerInfo} {mc : String}
    (h1 : truthyStr s.winner = false)
    (h2 : DIRECTIONS d = some off)
    (h3 : playerInfo s name = some info)
    (h4 : turnBlocked s.current name = false)
    (h5 : getMarble s.board marble = some mc)
    (h6 : mc = info.color)
    (h7 : behindBlocked s.board marble off = false) :
    makeMove s name marble d
      = (if boardsEqual (simulate s.board off (collectRun s.board off marble)).1
              s.lastBoard
         then (false, setCaptured s name
           (info.captured + (simulate s.board off (collectRun s.board off marble)).2))
         else (true, commitState s name info
           (simulate s.board off (collectRun s.board off marble)))) := by
  subst h6
  unfold makeMove
  rw [h1, h2, h3, h4, h5]
  simp only [Bool.false_eq_true, if_false, beq_self_eq_true, Bool.not_true, h7]

/-- Inversion of an accepted move: all checks passed, the repetition test
failed, and the final state is the committed one. -/
theorem makeMove_accept_elim {s : GameState} {name : String} {marble : Pos}
    {d : String} {s' : GameState}
    (h : makeMove s name marble d = (true, s')) :
    ∃ off info mc,
      truthyStr s.winner = false ∧
      DIRECTIONS d = some off ∧
      playerInfo s name = some info ∧
      turnBlocked s.current name = false ∧
      getMarble s.board marble = some mc ∧
      mc = info.color ∧
      behindBlocked s.board marble off = false ∧
      boardsEqual (simulate s.board off (collectRun s.board off marble)).1
          s.lastBoard = false ∧
      s' = commitState s name info (simulate s.board off (collectRun s.board off marble)) := by
  rcases makeMove_outcomes s name marble d with hA |
    ⟨off, info, mc, h1, h2, h3, h4, h5, h6, h7, hrest⟩
  · rw [hA] at h
    exact absurd h (by simp)
  · rcases hrest with ⟨hbe, heq⟩ | ⟨hbe, heq⟩
    · rw [heq] at h
      exact absurd h (by simp)
    · rw [heq] at h
      have hs' : s' = commitState s name info
          (simulate s.board off (collectRun s.board off marble)) :=
        (congrArg Prod.snd h).symm
      exact ⟨off, info, mc, h1, h2, h3, h4, h5, h6, h7, hbe, hs'⟩

theorem setCaptured_board (s : GameState) (name : String) (v : Nat) :
    (setCaptured s name v).board = s.board := by
  unfold setCaptured; split_ifs <;> rfl

theorem setCaptured_lastBoard (s : GameState) (name : String) (v : Nat) :
    (setCaptured s name v).lastBoard = s.lastBoard := by
  unfold setCaptured; split_ifs <;> rfl

theorem setCaptured_winner (s : GameState) (name : String) (v : Nat) :
    (setCaptured s name v).winner = s.winner := by
  unfold setCaptured; split_ifs <;> rfl

theorem setCaptured_current (s : GameState) (name : String) (v : Nat) :
    (setCaptured s name v).current = s.current := by
  unfold setCaptured; split_ifs <;> rfl

theorem setCaptured_p1Name (s : GameState) (name : String) (v : Nat) :
    (setCaptured s name v).p1Name = s.p1Name := by
  unfold setCaptured; split_ifs <;> rfl

theorem setCaptured_p2Name (s : GameState) (name : String) (v : Nat) :
    (setCaptured s name v).p2Name = s.p2Name := by
  unfold setCaptured; split_ifs <;> rfl

theorem getCaptured_eq_of_playerInfo {s : GameState} {name : String}
    {info : PlayerInfo} (h : playerInfo s name = some info) :
    getCaptured s name = info.captured := by
  unfold getCaptured; rw [h]

theorem getCaptured_setCaptured_self (s : GameState) (name : String) (v : Nat)
    (hreg : name = s.p1Name ∨ name = s.p2Name) :
    getCaptured (setCaptured s name v) name = v := by
  by_cases hp1 : name = s.p1Name
  · simp [getCaptured, playerInfo, setCaptured, hp1]
  · rcases hreg with h | hp2
    · exact absurd h hp1
    · unfold getCaptured playerInfo setCaptured
      split_ifs
      simp_all

theorem getCaptured_setCaptured_other (s : GameState) (name : String) (v : Nat)
    (other : String) (ho : other ≠ name) :
    getCaptured (setCaptured s name v) other = getCaptured s other := by
  unfold getCaptured playerInfo setCaptured
  split_ifs <;> simp_all

theorem getCaptured_commitState (s : GameState) (name : String) (info : PlayerInfo)
    (res : Board × Nat) (other : String) :
    getCaptured (commitState s name info res) other
      = getCaptured (setCaptured s name (info.captured + res.2)) other := rfl

/-- On a winner-less well-formed state, every captured counter is below 7. -/
theorem getCaptured_lt7 {s : GameState} (hWF : WF s) (hwn : s.winner = none)
    (q : String) : getCaptured s q < 7 := by
  unfold getCaptured playerInfo
  split_ifs
  · exact (hWF.hcap hwn).1
  · exact (hWF.hcap hwn).2
  · decide

/-- On a well-formed state a set winner is a registered, non-empty name, so
the first check of make_move fires. -/
theorem winner_truthy {s : GameState} (hWF : WF s) {w : String}
    (hw : s.winner = some w) : truthyStr s.winner = true := by
  rcases hWF.hwin with h | h | h
  · rw [hw] at h; exact absurd h (by simp)
  · rw [h]; unfold truthyStr; simp [hWF.hn1]
  · rw [h]; unfold truthyStr; simp [hWF.hn2]

/-- C1: for every well-formed session state, a make_move call that returns
False leaves the whole session state exactly as it was: board, both
captured counters, current turn, winner and the previous-board snapshot.
In particular a repetition-check rejection, which mutates the board during
simulation, restores it and cannot leave a capture increment behind: a
capture would have dropped the marble total below the total of the
snapshot it just matched, which the state invariant forbids. -/
theorem makeMove_false_state_unchanged (s : GameState) (name : String)
    (marble : Pos) (d : String) (s' : GameState) (hWF : WF s)
    (h : makeMove s name marble d = (false, s')) : s' = s := by
  rcases makeMove_outcomes s name marble d with hA |
    ⟨off, info, mc, h1, h2, h3, h4, h5, h6, h7, hrest⟩
  · rw [hA] at h
    exact (congrArg Prod.snd h).symm
  · rcases hrest with ⟨hbe, heq⟩ | ⟨hbe, heq⟩
    · rw [heq] at h
      have hs' : s' = setCaptured s name
          (info.captured + (simulate s.board off (collectRun s.board off marble)).2) :=
        (congrArg Prod.snd h).symm
      have hoffne := DIRECTIONS_ne_zero h2
      have hmcWB := moverColor_WB hWF h3 h5 h6
      obtain ⟨hshape, hcap1, hcapdrop, hdisj⟩ := sim_spec hoffne h5 hmcWB
      have hcaps0 : (simulate s.board off (collectRun s.board off marble)).2 = 0 := by
        by_contra hne
        have hge : 1 ≤ (simulate s.board off (collectRun s.board off marble)).2 := by
          omega
        have hdrop := hcapdrop hge
        have hsimOK : boardOK (simulate s.board off (collectRun s.board off marble)).1 :=
          simulate_boardOK hWF.hboard off _
        have hEq := (boardsEqual_iff hsimOK hWF.hlast).mp hbe
        rw [hEq] at hdrop
        have hmono := hWF.hcount
        omega
      rw [hcaps0, Nat.add_zero] at hs'
      rw [hs']
      exact setCaptured_self h3
    · rw [heq] at h
      exact absurd h (by simp)

/-- C5: once the winner field holds a player's name, every subsequent
make_move call, by either player with any position and direction, returns
False and leaves the state unchanged; hence the winner never changes. -/
theorem makeMove_after_win_rejected (s : GameState) (name : String)
    (marble : Pos) (d : String) (w : String) (hWF : WF s)
    (hw : s.winner = some w) :
    makeMove s name marble d = (false, s) := by
  unfold makeMove
  rw [winner_truthy hWF hw]
  rfl

/-- C9: in every make_move call on a well-formed state, the acting player's
captured counter grows by at most one, every other counter is unchanged,
and starting from a winner-less state no counter can pass 7: a counter
that reaches 7 reaches exactly 7. -/
theorem captured_delta (s : GameState) (name : String) (marble : Pos)
    (d : String) (hWF : WF s) :
    getCaptured (makeMove s name marble d).2 name ≤ getCaptured s name + 1 ∧
    (∀ other, other ≠ name →
      getCaptured (makeMove s name marble d).2 other = getCaptured s other) ∧
    (s.winner = none → ∀ q, 7 ≤ getCaptured (makeMove s name marble d).2 q →
      getCaptured (makeMove s name marble d).2 q = 7) := by
  rcases makeMove_outcomes s name marble d with hA |
    ⟨off, info, mc, h1, h2, h3, h4, h5, h6, h7, hrest⟩
  · have e2 : (makeMove s name marble d).2 = s := by rw [hA]
    rw [e2]
    refine ⟨by omega, fun o _ => rfl, fun hwn q h7q => ?_⟩
    have := getCaptured_lt7 hWF hwn q
    omega
  · have hoffne := DIRECTIONS_ne_zero h2
    have hmcWB := moverColor_WB hWF h3 h5 h6
    obtain ⟨hshape, hcap1, hcapdrop, hdisj⟩ := sim_spec hoffne h5 hmcWB
    have hreg := playerInfo_name_cases h3
    have hcap : getCaptured s name = info.captured := getCaptured_eq_of_playerInfo h3
    have key : ∀ s'', (∀ q, getCaptured s'' q = getCaptured (setCaptured s name
        (info.captured + (simulate s.board off (collectRun s.board off marble)).2)) q) →
        getCaptured s'' name ≤ getCaptured s name + 1 ∧
        (∀ other, other ≠ name → getCaptured s'' other = getCaptured s other) ∧
        (s.winner = none → ∀ q, 7 ≤ getCaptured s'' q → getCaptured s'' q = 7) := by
      intro s'' hs''
      refine ⟨?_, ?_, ?_⟩
      · rw [hs'' name, getCaptured_setCaptured_self s name _ hreg, hcap]
        omega
      · intro other ho
        rw [hs'' other]
        exact getCaptured_setCaptured_other s name _ other ho
      · intro hwn q h7q
        rw [hs'' q] at h7q ⊢
        by_cases hq : q = name
        · subst hq
          rw [getCaptured_setCaptured_self s q _ hreg] at h7q ⊢
          have hlt := getCaptured_lt7 hWF hwn q
          rw [hcap] at hlt
          omega
        · rw [getCaptured_setCaptured_other s name _ q hq] at h7q ⊢
          have hlt := getCaptured_lt7 hWF hwn q
          omega
    rcases hrest with ⟨hbe, heq⟩ | ⟨hbe, heq⟩
    · have e2 : (makeMove s name marble d).2 = setCaptured s name
          (info.captured + (simulate s.board off (collectRun s.board off marble)).2) := by
        rw [heq]
      rw [e2]
      exact key _ (fun q => rfl)
    · have e2 : (makeMove s name marble d).2 = commitState s name info
          (simulate s.board off (collectRun s.board off marble)) := by
        rw [heq]
      rw [e2]
      exact key _ (fun q => getCaptured_commitState s name info _ q)

/-- C10: the marble total never increases across make_move: a rejected move
keeps it unchanged and an accepted move keeps it or drops it by exactly
one. -/
theorem marbleTotal_monotone (s : GameState) (name : String) (marble : Pos)
    (d : String) (hWF : WF s) :
    marbleTotal (makeMove s name marble d).2.board ≤ marbleTotal s.board ∧
    ((makeMove s name marble d).1 = false →
      marbleTotal (makeMove s name marble d).2.board = marbleTotal s.board) ∧
    ((makeMove s name marble d).1 = true →
      (marbleTotal (makeMove s name marble d).2.board = marbleTotal s.board ∨
       marbleTotal (makeMove s name marble d).2.board + 1 = marbleTotal s.board)) := by
  rcases makeMove_outcomes s name marble d with hA |
    ⟨off, info, mc, h1, h2, h3, h4, h5, h6, h7, hrest⟩
  · have e2 : (makeMove s name marble d).2 = s := by rw [hA]
    rw [e2]
    exact ⟨le_rfl, fun _ => rfl, fun hc => Or.inl rfl⟩
  · have hoffne := DIRECTIONS_ne_zero h2
    have hmcWB := moverColor_WB hWF h3 h5 h6
    obtain ⟨hshape, hcap1, hcapdrop, hdisj⟩ := sim_spec hoffne h5 hmcWB
    rcases hrest with ⟨hbe, heq⟩ | ⟨hbe, heq⟩
    · have e2 : (makeMove s name marble d).2 = setCaptured s name
          (info.captured + (simulate s.board off (collectRun s.board off marble)).2) := by
        rw [heq]
      rw [e2, setCaptured_board]
      exact ⟨le_rfl, fun _ => rfl, fun hc => Or.inl rfl⟩
    · have e2 : (makeMove s name marble d).2 = commitState s name info
          (simulate s.board off (collectRun s.board off marble)) := by
        rw [heq]
      have e1 : (makeMove s name marble d).1 = true := by rw [heq]
      have hbd : (commitState s name info
          (simulate s.board off (collectRun s.board off marble))).board
          = (simulate s.board off (collectRun s.board off marble)).1 := rfl
      rw [e2, hbd]
      exact ⟨by omega, fun hc => by rw [e1] at hc; exact absurd hc (by simp),
        fun _ => hdisj⟩

/-- C4: for a move that passes validation checks 1 through 7, the move is
rejected exactly when the simulated board is cell-for-cell equal to the
snapshot saved before the previous completed move; a rejection restores the
pre-simulation board, and otherwise the move commits with the
pre-simulation board as the new snapshot. -/
theorem repetition_rule (s : GameState) (name : String) (marble : Pos) (d : String)
    (off : Pos) (info : PlayerInfo) (mc : String) (hWF : WF s)
    (h1 : truthyStr s.winner = false) (h2 : DIRECTIONS d = some off)
    (h3 : playerInfo s name = some info) (h4 : turnBlocked s.current name = false)
    (h5 : getMarble s.board marble = some mc) (h6 : mc = info.color)
    (h7 : behindBlocked s.board marble off = false) :
    ((makeMove s name marble d).1 = false ↔
      (simulate s.board off (collectRun s.board off marble)).1 = s.lastBoard) ∧
    ((simulate s.board off (collectRun s.board off marble)).1 = s.lastBoard →
      (makeMove s name marble d).2.board = s.board) ∧
    ((simulate s.board off (collectRun s.board off marble)).1 ≠ s.lastBoard →
      (makeMove s name marble d).1 = true ∧
      (makeMove s name marble d).2.board
        = (simulate s.board off (collectRun s.board off marble)).1 ∧
      (makeMove s name marble d).2.lastBoard = s.board) := by
  have hred := makeMove_checked h1 h2 h3 h4 h5 h6 h7
  have hsimOK : boardOK (simulate s.board off (collectRun s.board off marble)).1 :=
    simulate_boardOK hWF.hboard off _
  have hiff := boardsEqual_iff hsimOK hWF.hlast
  by_cases hbe : boardsEqual (simulate s.board off (collectRun s.board off marble)).1
      s.lastBoard = true
  · have heqb := hiff.mp hbe
    rw [if_pos hbe] at hred
    have e1 : (makeMove s name marble d).1 = false := by rw [hred]
    have e2 : (makeMove s name marble d).2 = setCaptured s name
        (info.captured + (simulate s.board off (collectRun s.board off marble)).2) := by
      rw [hred]
    exact ⟨⟨fun _ => heqb, fun _ => e1⟩, fun _ => by rw [e2, setCaptured_board],
      fun hne => absurd heqb hne⟩
  · rw [if_neg hbe] at hred
    have e1 : (makeMove s name marble d).1 = true := by rw [hred]
    have e2 : (makeMove s name marble d).2 = commitState s name info
        (simulate s.board off (collectRun s.board off marble)) := by
      rw [hred]
    have hneq : (simulate s.board off (collectRun s.board off marble)).1 ≠ s.lastBoard :=
      fun he => hbe (hiff.mpr he)
    exact ⟨⟨fun hf => absurd (e1.symm.trans hf) (by simp), fun he => absurd he hneq⟩,
      fun he => absurd he hneq,
      fun _ => ⟨e1, by rw [e2]; rfl, by rw [e2]; rfl⟩⟩

/-- The winner evaluation declares the mover winner when the mover is below
7 captures and the board holds no marble of the opponent color, for either
assignment of the two colors. -/
theorem evalWinner_clear_win (g : GameState) (name : String) (color : String)
    (captured : Nat) (hcap : captured < 7)
    (hW : (color = "W" ∧ colorCount g.board "B" = 0) ∨
          (color = "B" ∧ colorCount g.board "W" = 0)) :
    evalWinner g name color captured = some name := by
  unfold evalWinner
  rw [if_neg (by omega)]
  rcases hW with ⟨hc, hz⟩ | ⟨hc, hz⟩
  · subst hc
    have hidx : (if (("W" : String) == "W") = true then (1 : Nat) else 0) = 1 := by
      decide
    rw [hidx]
    have ht : tupleGet (getMarbleCount g.board) 1 = colorCount g.board "B" := by
      unfold tupleGet
      rw [if_neg (by decide), if_pos rfl]
      exact getMarbleCount_black g.board
    rw [ht, hz, if_pos (by decide)]
  · subst hc
    have hidx : (if (("B" : String) == "W") = true then (1 : Nat) else 0) = 0 := by
      decide
    rw [hidx]
    have ht : tupleGet (getMarbleCount g.board) 0 = colorCount g.board "W" := by
      unfold tupleGet
      rw [if_pos rfl]
      exact getMarbleCount_white g.board
    rw [ht, hz, if_pos (by decide)]

/-- C6: an accepted move after which the mover's opponent has zero marbles
of the opponent's color on the board, while the mover's captured count
stays below 7, sets the winner to the mover's name; this holds for the
mover being the white player and for the mover being the black player. -/
theorem opponent_cleared_win (s : GameState) (name : String) (marble : Pos)
    (d : String) (s' : GameState) (_hWF : WF s)
    (h : makeMove s name marble d = (true, s'))
    (hcols : (playerColorOf s name = "W" ∧ oppColorOf s name = "B") ∨
             (playerColorOf s name = "B" ∧ oppColorOf s name = "W"))
    (hcap : getCaptured s' name < 7)
    (hzero : colorCount s'.board (oppColorOf s name) = 0) :
    s'.winner = some name := by
  obtain ⟨off, info, mc, h1, h2, h3, h4, h5, h6, h7, hbe, hs'⟩ := makeMove_accept_elim h
  have hpc : playerColorOf s name = info.color := by unfold playerColorOf; rw [h3]
  have hreg := playerInfo_name_cases h3
  have hboard' : s'.board = (simulate s.board off (collectRun s.board off marble)).1 := by
    rw [hs']; rfl
  have hcap' : getCaptured s' name
      = info.captured + (simulate s.board off (collectRun s.board off marble)).2 := by
    rw [hs', getCaptured_commitState, getCaptured_setCaptured_self s name _ hreg]
  have hwin : s'.winner = evalWinner
      { setCaptured s name
          (info.captured + (simulate s.board off (collectRun s.board off marble)).2) with
        board := (simulate s.board off (collectRun s.board off marble)).1,
        lastBoard := s.board }
      name info.color
      (info.captured + (simulate s.board off (collectRun s.board off marble)).2) := by
    rw [hs']; rfl
  have hlt : info.captured + (simulate s.board off (collectRun s.board off marble)).2
      < 7 := by
    rw [← hcap']; exact hcap
  rw [hwin]
  rcases hcols with ⟨hW, hOppB⟩ | ⟨hB, hOppW⟩
  · have hcolor : info.color = "W" := hpc.symm.trans hW
    rw [hOppB, hboard'] at hzero
    exact evalWinner_clear_win _ name info.color _ hlt (Or.inl ⟨hcolor, hzero⟩)
  · have hcolor : info.color = "B" := hpc.symm.trans hB
    rw [hOppW, hboard'] at hzero
    exact evalWinner_clear_win _ name info.color _ hlt (Or.inr ⟨hcolor, hzero⟩)

/-- C7: construction produces a 7 by 7 board of valid tags (for both the
board and the snapshot), and every make_move call, accepted or rejected,
keeps the board a 7 by 7 grid of valid tags. -/
theorem board_always_7x7 :
    (∀ pOne pTwo g, kubaInit pOne pTwo = some g →
       boardOK g.board ∧ boardOK g.lastBoard) ∧
    (∀ s name marble d, boardOK s.board →
       boardOK (makeMove s name marble d).2.board) := by
  constructor
  · intro pOne pTwo g hg
    unfold kubaInit at hg
    split_ifs at hg
    have hginv := Option.some.inj hg
    rw [← hginv]
    exact ⟨by show boardOK initBoard; decide, by show boardOK initBoard; decide⟩
  · intro s name marble d hb
    rcases makeMove_outcomes s name marble d with hA |
      ⟨off, info, mc, _h1, _h2, _h3, _h4, _h5, _h6, _h7, hrest⟩
    · have e2 : (makeMove s name marble d).2 = s := by rw [hA]
      rw [e2]; exact hb
    · rcases hrest with ⟨_, heq⟩ | ⟨_, heq⟩
      · have e2 : (makeMove s name marble d).2 = setCaptured s name
            (info.captured + (simulate s.board off (collectRun s.board off marble)).2) := by
          rw [heq]
        rw [e2, setCaptured_board]; exact hb
      · have e2 : (makeMove s name marble d).2 = commitState s name info
            (simulate s.board off (collectRun s.board off marble)) := by
          rw [heq]
        rw [e2]
        show boardOK (simulate s.board off (collectRun s.board off marble)).1
        exact simulate_boardOK hb off _

/-- C8: after every accepted move the stored turn is the registered player
who did not just move, also on a winning move. -/
theorem turn_flips (s : GameState) (name : String) (marble : Pos) (d : String)
    (s' : GameState) (hWF : WF s) (h : makeMove s name marble d = (true, s')) :
    (name = s.p1Name ∨ name = s.p2Name) ∧
    (name = s.p1Name → s'.current = some s.p2Name) ∧
    (name = s.p2Name → s'.current = some s.p1Name) := by
  obtain ⟨off, info, mc, h1, h2, h3, h4, h5, h6, h7, hbe, hs'⟩ := makeMove_accept_elim h
  have hreg := playerInfo_name_cases h3
  have hcur : s'.current = some (nextPlayer s name) := by rw [hs']; rfl
  refine ⟨hreg, fun hn1 => ?_, fun hn2 => ?_⟩
  · rw [hcur]
    subst hn1
    simp [nextPlayer]
  · rw [hcur]
    subst hn2
    simp [nextPlayer, hWF.hnames]

theorem initGame_WF : WF initGame :=
  ⟨by decide, by decide, by decide, by decide, by decide, by decide, by decide,
   by decide, by decide, by decide, by decide⟩

theorem c5State_WF : WF c5State :=
  ⟨by decide, by decide, by decide, by decide, by decide, by decide, by decide,
   by decide, by decide, by decide, by decide⟩

theorem c6State_WF : WF c6State :=
  ⟨by decide, by decide, by decide, by decide, by decide, by decide, by decide,
   by decide, by decide, by decide, by decide⟩

/-- C2 (code bug, witnessed on a reachable game): from a fresh session,
after the accepted moves A:(6,5)F and B:(6,0)F, player A's marble at (6,6)
stands alone at the right edge with an empty cell behind it.  The move
A:(6,6)R collects a run of length one whose only destination is off the
board; make_move accepts it, yet the board is completely unchanged: the
white marble still sits at (6,6) although the spec says a marble whose
destination is off-board is removed.  (The push loop only blanks a vacated
cell in its in-bounds branch, so the far cell of a length-one run is never
cleared.) -/
theorem push_off_run_of_one_not_removed :
    (makeMove initGame "A" (6, 5) "F").1 = true ∧
    (makeMove c2Mid1 "B" (6, 0) "F").1 = true ∧
    (makeMove c2Mid2 "A" (6, 6) "R").1 = true ∧
    getMarble c2Mid2.board (6, 6) = some "W" ∧
    (makeMove c2Mid2 "A" (6, 6) "R").2.board = c2Mid2.board ∧
    getMarble (makeMove c2Mid2 "A" (6, 6) "R").2.board (6, 6) = some "W" := by
  decide

/-- C3 (code bug): the constructor validates a color with the Python test
(color in 'WB'), which is a substring test: the empty string and the
two-character token "WB" pass it, so construction succeeds for them and a
session object exists, although the claim requires every color token
outside the set of the single characters W, B to be rejected.  The other
validations (a genuinely foreign token, an empty name, duplicate names,
duplicate colors) do reject, and the well-formed call succeeds. -/
theorem construct_accepts_bad_colors :
    (kubaInit ("A", "") ("B", "W")).isSome = true ∧
    (kubaInit ("A", "WB") ("B", "W")).isSome = true ∧
    (kubaInit ("A", "Q") ("B", "W")).isSome = false ∧
    (kubaInit ("", "W") ("B", "B")).isSome = false ∧
    (kubaInit ("A", "W") ("A", "B")).isSome = false ∧
    (kubaInit ("A", "W") ("B", "W")).isSome = false ∧
    (kubaInit ("A", "W") ("B", "B")).isSome = true := by
  decide

theorem makeMove_false_state_unchanged_witness :
    (makeMove initGame "A" (0, 0) "Q").2 = initGame :=
  makeMove_false_state_unchanged initGame "A" (0, 0) "Q"
    (makeMove initGame "A" (0, 0) "Q").2 initGame_WF (by decide)

theorem repetition_rule_witness :
    (makeMove initGame "A" (6, 5) "F").1 = false ↔
      (simulate initGame.board (-1, 0) (collectRun initGame.board (-1, 0) (6, 5))).1
        = initGame.lastBoard :=
  (repetition_rule initGame "A" (6, 5) "F" (-1, 0) ⟨"W", 0⟩ "W" initGame_WF
    (by decide) (by decide) (by decide) (by decide) (by decide) (by decide)
    (by decide)).1

theorem makeMove_after_win_rejected_witness :
    makeMove c5State "B" (0, 5) "F" = (false, c5State) :=
  makeMove_after_win_rejected c5State "B" (0, 5) "F" "A" c5State_WF (by decide)

theorem opponent_cleared_win_witness :
    (makeMove c6State "A" (3, 5) "R").2.winner = some "A" :=
  opponent_cleared_win c6State "A" (3, 5) "R" (makeMove c6State "A" (3, 5) "R").2
    c6State_WF (by decide) (Or.inl ⟨by decide, by decide⟩) (by decide) (by decide)

theorem board_always_7x7_witness :
    (boardOK initGame.board ∧ boardOK initGame.lastBoard) ∧
    boardOK (makeMove initGame "A" (6, 5) "F").2.board :=
  ⟨board_always_7x7.1 ("A", "W") ("B", "B") initGame (by decide),
   board_always_7x7.2 initGame "A" (6, 5) "F" (by decide)⟩

theorem turn_flips_witness :
    (makeMove initGame "A" (6, 5) "F").2.current = some "B" :=
  (turn_flips initGame "A" (6, 5) "F" (makeMove initGame "A" (6, 5) "F").2
    initGame_WF (by decide)).2.1 rfl

theorem captured_delta_witness :
    getCaptured (makeMove initGame "A" (6, 5) "F").2 "A"
      ≤ getCaptured initGame "A" + 1 :=
  (captured_delta initGame "A" (6, 5) "F" initGame_WF).1

theorem marbleTotal_monotone_witness :
    marbleTotal (makeMove initGame "A" (6, 5) "F").2.board
      ≤ marbleTotal initGame.board :=
  (marbleTotal_monotone initGame "A" (6, 5) "F" initGame_WF).1

theorem prefix_nil_case {l : List Char} (h : l <+: []) : l = [] :=
  List.prefix_nil.mp h

theorem prefix_single_case {x : Char} {l : List Char} (h : l <+: [x]) :
    l = [] ∨ l = [x] := by
  obtain ⟨t, ht⟩ := h
  rcases l with _ | ⟨a, as⟩
  · exact Or.inl rfl
  · rcases as with _ | ⟨b, bs⟩
    · simp at ht
      rw [ht.1]
      exact Or.inr rfl
    · simp at ht

theorem prefix_pair_case {x y : Char} {l : List Char} (h : l <+: [x, y]) :
    l = [] ∨ l = [x] ∨ l = [x, y] := by
  obtain ⟨t, ht⟩ := h
  rcases l with _ | ⟨a, as⟩
  · exact Or.inl rfl
  · rcases as with _ | ⟨b, bs⟩
    · simp at ht
      rw [ht.1]
      exact Or.inr (Or.inl rfl)
    · rcases bs with _ | ⟨e, es⟩
      · simp at ht
        rw [ht.1, ht.2.1]
        exact Or.inr (Or.inr rfl)
      · simp at ht

/-- A color token passing the substring test (color in 'WB') is one of the
four substrings of the two-character string. -/
theorem strIn_WB_cases {c : String} (h : strIn c "WB" = true) :
    c ∈ (["", "W", "B", "WB"] : List String) := by
  have hmk : ∀ l : List Char, c.data = l → c = ⟨l⟩ := by
    intro l hl
    cases c
    exact congrArg String.mk hl
  unfold strIn at h
  have hany : List.any [0, 1, 2]
      (fun i => List.isPrefixOf c.data ((("WB" : String).data).drop i)) = true := h
  simp only [List.any_cons, List.any_nil, Bool.or_eq_true, Bool.or_false] at hany
  rcases hany with h0 | h1 | h2
  · have hpre : c.data <+: ['W', 'B'] := by
      rw [← List.isPrefixOf_iff_prefix]
      exact h0
    rcases prefix_pair_case hpre with hc | hc | hc
    · rw [hmk _ hc]; decide
    · rw [hmk _ hc]; decide
    · rw [hmk _ hc]; decide
  · have hpre : c.data <+: ['B'] := by
      rw [← List.isPrefixOf_iff_prefix]
      exact h1
    rcases prefix_single_case hpre with hc | hc
    · rw [hmk _ hc]; decide
    · rw [hmk _ hc]; decide
  · have hpre : c.data <+: [] := by
      rw [← List.isPrefixOf_iff_prefix]
      exact h2
    rw [hmk _ (prefix_nil_case hpre)]; decide

theorem setCaptured_p1color (s : GameState) (name : String) (v : Nat) :
    (setCaptured s name v).p1.color = s.p1.color := by
  unfold setCaptured; split_ifs <;> rfl

theorem setCaptured_p2color (s : GameState) (name : String) (v : Nat) :
    (setCaptured s name v).p2.color = s.p2.color := by
  unfold setCaptured; split_ifs <;> rfl

theorem setCaptured_p1_of_ne {s : GameState} {name : String} (v : Nat)
    (h : name ≠ s.p1Name) : (setCaptured s name v).p1 = s.p1 := by
  unfold setCaptured; split_ifs <;> first | rfl | exact absurd (by assumption) h

theorem setCaptured_p2_of_ne {s : GameState} {name : String} (v : Nat)
    (h1 : name = s.p1Name) : (setCaptured s name v).p2 = s.p2 := by
  unfold setCaptured; rw [if_pos h1]

theorem setCaptured_p1_captured {s : GameState} {name : String} (v : Nat)
    (h : name = s.p1Name) : (setCaptured s name v).p1.captured = v := by
  unfold setCaptured; rw [if_pos h]

theorem setCaptured_p2_captured {s : GameState} {name : String} (v : Nat)
    (h1 : name ≠ s.p1Name) (h2 : name = s.p2Name) :
    (setCaptured s name v).p2.captured = v := by
  unfold setCaptured; rw [if_neg h1, if_pos h2]

/-- When the first check of make_move passes on a well-formed state, there
is no winner at all (a set winner is a non-empty name, hence truthy). -/
theorem winner_none_of_not_truthy {s : GameState} (hWF : WF s)
    (h1 : truthyStr s.winner = false) : s.winner = none := by
  rcases hWF.hwin with h | h | h
  · exact h
  · rw [h] at h1
    unfold truthyStr at h1
    simp [hWF.hn1] at h1
  · rw [h] at h1
    unfold truthyStr at h1
    simp [hWF.hn2] at h1

/-- The winner evaluation returns the old winner, the mover's name, or one
of the two registered names. -/
theorem evalWinner_domain (g : GameState) (name color : String) (captured : Nat) :
    evalWinner g name color captured = g.winner ∨
    evalWinner g name color captured = some name ∨
    evalWinner g name color captured = some g.p1Name ∨
    evalWinner g name color captured = some g.p2Name := by
  unfold evalWinner
  split_ifs <;> try exact Or.inr (Or.inl rfl)
  all_goals
    split
    · split_ifs
      · exact Or.inl rfl
      · exact Or.inr (Or.inr (Or.inl rfl))
      · exact Or.inr (Or.inr (Or.inr rfl))
    · exact Or.inl rfl

/-- A winner evaluation that sets no winner had a mover below 7 captures. -/
theorem evalWinner_none_cap_lt7 {g : GameState} {name color : String}
    {captured : Nat} (h : evalWinner g name color captured = none) :
    captured < 7 := by
  unfold evalWinner at h
  by_cases hcap : 7 ≤ captured
  · rw [if_pos hcap] at h
    exact absurd h (by simp)
  · omega

/-- On a well-formed state, a repetition rejection can never have counted a
capture: a capture drops the marble total strictly below the total of the
pre-move board, which is at most the total of the snapshot the simulated
board just matched. -/
theorem repetition_caps_zero {s : GameState} {name : String} {marble : Pos}
    {off : Pos} {info : PlayerInfo} {mc : String} (hWF : WF s)
    (hoffne : ¬(off.1 = 0 ∧ off.2 = 0))
    (h3 : playerInfo s name = some info)
    (h5 : getMarble s.board marble = some mc) (h6 : mc = info.color)
    (hbe : boardsEqual (simulate s.board off (collectRun s.board off marble)).1
        s.lastBoard = true) :
    (simulate s.board off (collectRun s.board off marble)).2 = 0 := by
  have hmcWB := moverColor_WB hWF h3 h5 h6
  obtain ⟨hshape, hcap1, hcapdrop, hdisj⟩ := sim_spec hoffne h5 hmcWB
  by_contra hne
  have hge : 1 ≤ (simulate s.board off (collectRun s.board off marble)).2 := by omega
  have hdrop := hcapdrop hge
  have hsimOK : boardOK (simulate s.board off (collectRun s.board off marble)).1 :=
    simulate_boardOK hWF.hboard off _
  have hEq := (boardsEqual_iff hsimOK hWF.hlast).mp hbe
  rw [hEq] at hdrop
  have hmono := hWF.hcount
  omega

/-- Every state produced by the constructor is well-formed. -/
theorem wf_init (pOne pTwo : String × String) (g : GameState)
    (hg : kubaInit pOne pTwo = some g) : WF g := by
  unfold kubaInit at hg
  split_ifs at hg with a1 a2 a3 a4 a5 a6
  have hginv := Option.some.inj hg
  rw [← hginv]
  have hs1 : strIn pOne.2 "WB" = true := by simpa using a2
  have hs2 : strIn pTwo.2 "WB" = true := by simpa using a4
  exact ⟨by show boardOK initBoard; decide, by show boardOK initBoard; decide,
    a1, a3, a6, strIn_WB_cases hs1, strIn_WB_cases hs2, a5, Or.inl rfl,
    fun _ => ⟨by show (0 : Nat) < 7; decide, by show (0 : Nat) < 7; decide⟩,
    by show marbleTotal initBoard ≤ marbleTotal initBoard; exact le_rfl⟩

/-- Every make_move call keeps the state well-formed, so WF holds in every
state a session can reach. -/
theorem wf_step (s : GameState) (name : String) (marble : Pos) (d : String)
    (hWF : WF s) : WF (makeMove s name marble d).2 := by
  rcases makeMove_outcomes s name marble d with hA |
    ⟨off, info, mc, h1, h2, h3, h4, h5, h6, h7, hrest⟩
  · have e2 : (makeMove s name marble d).2 = s := by rw [hA]
    rw [e2]; exact hWF
  · have hoffne := DIRECTIONS_ne_zero h2
    rcases hrest with ⟨hbe, heq⟩ | ⟨hbe, heq⟩
    · have hz := repetition_caps_zero hWF hoffne h3 h5 h6 hbe
      have e2 : (makeMove s name marble d).2 = setCaptured s name
          (info.captured + (simulate s.board off (collectRun s.board off marble)).2) := by
        rw [heq]
      rw [e2, hz, Nat.add_zero, setCaptured_self h3]
      exact hWF
    · have e2 : (makeMove s name marble d).2 = commitState s name info
        (simulate s.board off (collectRun s.board off marble)) := by rw [heq]
      rw [e2]
      have hmcWB := moverColor_WB hWF h3 h5 h6
      obtain ⟨hshape, hcap1, hcapdrop, hdisj⟩ := sim_spec hoffne h5 hmcWB
      have hreg := playerInfo_name_cases h3
      have hwn : s.winner = none := winner_none_of_not_truthy hWF h1
      have hp1n : (commitState s name info
          (simulate s.board off (collectRun s.board off marble))).p1Name = s.p1Name :=
        setCaptured_p1Name s name _
      have hp2n : (commitState s name info
          (simulate s.board off (collectRun s.board off marble))).p2Name = s.p2Name :=
        setCaptured_p2Name s name _
      have hc1c : (commitState s name info
          (simulate s.board off (collectRun s.board off marble))).p1.color = s.p1.color :=
        setCaptured_p1color s name _
      have hc2c : (commitState s name info
          (simulate s.board off (collectRun s.board off marble))).p2.color = s.p2.color :=
        setCaptured_p2color s name _
      have hwinv : (commitState s name info
          (simulate s.board off (collectRun s.board off marble))).winner
          = evalWinner
            { setCaptured s name (info.captured +
                (simulate s.board off (collectRun s.board off marble)).2) with
              board := (simulate s.board off (collectRun s.board off marble)).1,
              lastBoard := s.board }
            name info.color
            (info.captured + (simulate s.board off (collectRun s.board off marble)).2) :=
        rfl
      have hgw : ({ setCaptured s name (info.captured +
            (simulate s.board off (collectRun s.board off marble)).2) with
          board := (simulate s.board off (collectRun s.board off marble)).1,
          lastBoard := s.board } : GameState).winner = s.winner :=
        setCaptured_winner s name _
      refine ⟨?_, ?_, ?_, ?_, ?_, ?_, ?_, ?_, ?_, ?_, ?_⟩
      · show boardOK (simulate s.board off (collectRun s.board off marble)).1
        exact simulate_boardOK hWF.hboard off _
      · show boardOK s.board
        exact hWF.hboard
      · rw [hp1n]; exact hWF.hn1
      · rw [hp2n]; exact hWF.hn2
      · rw [hp1n, hp2n]; exact hWF.hnames
      · rw [hc1c]; exact hWF.hc1
      · rw [hc2c]; exact hWF.hc2
      · rw [hc1c, hc2c]; exact hWF.hcolors
      · rw [hwinv]
        rcases evalWinner_domain _ name info.color _ with hd | hd | hd | hd
        · rw [hd, hgw, hwn]
          exact Or.inl rfl
        · rw [hd, hp1n, hp2n]
          rcases hreg with hn | hn
          · exact Or.inr (Or.inl (by rw [hn]))
          · exact Or.inr (Or.inr (by rw [hn]))
        · rw [hd, hp1n]
          exact Or.inr (Or.inl (by
            show some (setCaptured s name _).p1Name = some s.p1Name
            rw [setCaptured_p1Name]))
        · rw [hd, hp2n]
          exact Or.inr (Or.inr (by
            show some (setCaptured s name _).p2Name = some s.p2Name
            rw [setCaptured_p2Name]))
      · intro hwnone
        rw [hwinv] at hwnone
        have hlt7 := evalWinner_none_cap_lt7 hwnone
        rcases hreg with hn | hn
        · constructor
          · show (setCaptured s name (info.captured +
              (simulate s.board off (collectRun s.board off marble)).2)).p1.captured < 7
            rw [setCaptured_p1_captured _ hn]
            exact hlt7
          · show (setCaptured s name (info.captured +
              (simulate s.board off (collectRun s.board off marble)).2)).p2.captured < 7
            rw [setCaptured_p2_of_ne _ hn]
            exact (hWF.hcap hwn).2
        · have hne1 : name ≠ s.p1Name := by
            rw [hn]; exact fun hcontra => hWF.hnames hcontra.symm
          constructor
          · show (setCaptured s name (info.captured +
              (simulate s.board off (collectRun s.board off marble)).2)).p1.captured < 7
            rw [setCaptured_p1_of_ne _ hne1]
            exact (hWF.hcap hwn).1
          · show (setCaptured s name (info.captured +
              (simulate s.board off (collectRun s.board off marble)).2)).p2.captured < 7
            rw [setCaptured_p2_captured _ hne1 hn]
            exact hlt7
      · show marbleTotal (simulate s.board off (collectRun s.board off marble)).1
          ≤ marbleTotal s.board
        omega
